import Mathlib

set_option maxRecDepth 100000

/-!
Verification of the address-range expansion and concurrent reachability
engine of leadfact/ipdefiner (src/main.go).

The model is a shallow embedding of the core of src/main.go:

* `parseCIDR` models `net.ParseCIDR` for IPv4 dotted-quad inputs (IPv6 is a
  declared non-goal of the system), returning the masked network bytes and
  the mask length; `Mask.Size()` of the resulting canonical mask is
  (length, 32).
* `increment` models the function of lines 181-189.  Go slice indexing out
  of range is a runtime panic; every read that would be out of range is
  modelled as `none`.
* `enumHosts` / `dispatchList` model the dispatch loop of lines 135-144,
  returning the list of dispatched address copies and whether the loop
  panicked.
* `PoolEntry` / `poolInsert` / `runPool` model the shared
  `map[*net.IP]bool` of line 138 and the guarded writes of lines 153-155:
  a map key is the pointer `&ip` to a goroutine's task-local variable, so
  an entry records that storage identity (`ptr`, one fresh cell per
  dispatched task) next to its contents (`addr`) and the probe verdict.
  `runPool` folds the serialized writes in an arbitrary completion
  schedule `order`; `analyze` joins every task (`wg.Wait`, line 158)
  before returning the pool.
* `pingAddress` models lines 163-179 under an oracle for `pinger.Run`.
-/

namespace IpDefiner

/-- Is the character an ASCII digit (the digit test of Go's net.dtoi). -/
def isDigitChar (c : Char) : Bool := '0' ≤ c && c ≤ '9'

/-- Split a character list into its leading run of digits and the remainder
(the digit-consuming loop of Go's net.dtoi). -/
def takeDigits : List Char → List Char × List Char
  | [] => ([], [])
  | c :: cs =>
    if isDigitChar c then
      match takeDigits cs with
      | (ds, rest) => (c :: ds, rest)
    else ([], c :: cs)

/-- Decimal value of a digit run (the accumulator of Go's net.dtoi). -/
def digitsToNat (ds : List Char) : Nat :=
  ds.foldl (fun n c => n * 10 + (c.toNat - '0'.toNat)) 0

/-- Split at the first slash, as net.ParseCIDR does with IndexByte. -/
def splitSlash : List Char → Option (List Char × List Char)
  | [] => none
  | c :: cs =>
    if c = '/' then some ([], cs)
    else
      match splitSlash cs with
      | none => none
      | some (l, r) => some (c :: l, r)

/-- One dotted-decimal field of an IPv4 address: a nonempty digit run with
value at most 255 and no leading zero (the field step of Go's
net.parseIPv4). -/
def parseField (cs : List Char) : Option (Nat × List Char) :=
  match takeDigits cs with
  | ([], _) => none
  | (d :: ds, rest) =>
    if d = '0' ∧ ds ≠ [] then none
    else if digitsToNat (d :: ds) ≤ 255 then some (digitsToNat (d :: ds), rest)
    else none

/-- Consume the dot between fields (Go's net.parseIPv4). -/
def expectDot : List Char → Option (List Char)
  | '.' :: r => some r
  | _ => none

/-- Dotted-quad parser: models Go's net.parseIPv4 (four fields, dots
between them, whole input consumed). -/
def parseIPv4 (cs : List Char) : Option (Nat × Nat × Nat × Nat) :=
  match parseField cs with
  | none => none
  | some (a, r1) =>
    match expectDot r1 with
    | none => none
    | some r2 =>
      match parseField r2 with
      | none => none
      | some (b, r3) =>
        match expectDot r3 with
        | none => none
        | some r4 =>
          match parseField r4 with
          | none => none
          | some (c, r5) =>
            match expectDot r5 with
            | none => none
            | some r6 =>
              match parseField r6 with
              | none => none
              | some (d, r7) => if r7 = [] then some (a, b, c, d) else none

/-- The mask length: a digit run that consumes the whole remainder, with
value at most 32 (net.ParseCIDR checks ok, i == len(mask) and
n ≤ 8·IPv4len). -/
def parseMaskLen (cs : List Char) : Option Nat :=
  match takeDigits cs with
  | ([], _) => none
  | (d :: ds, rest) =>
    if rest = [] ∧ digitsToNat (d :: ds) ≤ 32 then some (digitsToNat (d :: ds))
    else none

/-- Number of mask one-bits that fall in byte j of a /p mask
(net.CIDRMask spreads p leading one bits over the 4 bytes). -/
def onesInByte (p j : Nat) : Nat := min 8 (p - 8 * j)

/-- net.IP.Mask applied to byte j: bitwise AND with the CIDR mask byte,
that is, clearing the low 8 - onesInByte p j bits of b. -/
def maskByte (p j b : Nat) : Nat :=
  b / 2 ^ (8 - onesInByte p j) * 2 ^ (8 - onesInByte p j)

/-- The masked network address ip.Mask(CIDRMask(p, 32)) of the dotted quad
a.b.c.d, as the 4 network bytes. -/
def maskApply (a b c d p : Nat) : List Nat :=
  [maskByte p 0 a, maskByte p 1 b, maskByte p 2 c, maskByte p 3 d]

/-- Models net.ParseCIDR (src/main.go line 130) on IPv4 inputs: the masked
network bytes together with the mask length p, for which Mask.Size()
returns (p, 32).  IPv6 input is a declared non-goal and outside the
model. -/
def parseCIDR (s : String) : Option (List Nat × Nat) :=
  match splitSlash s.data with
  | none => none
  | some (addrPart, maskPart) =>
    match parseIPv4 addrPart with
    | none => none
    | some (a, b, c, d) =>
      match parseMaskLen maskPart with
      | none => none
      | some p => some (maskApply a b c d p, p)

/-- Line 136: maximumNumberOfHostst := 1<<(bits-ones) - 2.  A Go int,
negative for /31 (0 would be 1<<1-2 = 0) and /32 (1<<0-2 = -1), hence
Int here. -/
def maxHosts (ones bits : Nat) : Int := 2 ^ (bits - ones) - 2

/-- Line 141: int(math.Round(float64(ones/8))).  ones/8 is Go integer
division, performed before the float conversion, so the round is the
identity and the starting byte index is floor(ones/8). -/
def incrementIndex (ones : Nat) : Nat := ones / 8

/-- The carry scan of lines 185-187: starting at position i, advance while
the byte at the position equals 254.  Reading past the end of the slice
is Go's index-out-of-range panic, modelled as none.  The first argument
is the suffix of the address starting at position i. -/
def scanFrom : List Nat → Nat → Option Nat
  | [], _ => none
  | b :: rest, i => if b = 254 then scanFrom rest (i + 1) else some i

/-- increment (lines 181-189): the guard returning unchanged when called at
the last byte holding 255, the carry scan, and the byte add (Go byte
arithmetic wraps modulo 256).  none models the index-out-of-range
panic. -/
def increment (address : List Nat) (lastOctet numberToIncrementBy : Nat) :
    Option (List Nat) :=
  if lastOctet = 3 ∧ address.getD 3 0 = 255 then some address
  else
    match scanFrom (address.drop lastOctet) lastOctet with
    | none => none
    | some i =>
      some (address.set i ((address.getD i 0 + numberToIncrementBy) % 256))

/-- The enumeration loop of lines 140-144: repeatedly increment the network
address in place, copying each value as it is dispatched.  Returns the
dispatched copies in order and whether the loop hit the
index-out-of-range panic (in which case the addresses dispatched before
the crash are returned). -/
def enumHosts (address : List Nat) (lastOctet : Nat) :
    Nat → List (List Nat) × Bool
  | 0 => ([], false)
  | n + 1 =>
    match increment address lastOctet 1 with
    | none => ([], true)
    | some next =>
      match enumHosts next lastOctet n with
      | (rest, panicked) => (next :: rest, panicked)

/-- The addresses analyze dispatches probes for, from the parsed network
address and mask length (lines 135-144), and whether the loop
panicked. -/
def dispatchList (network : List Nat) (p : Nat) : List (List Nat) × Bool :=
  enumHosts network (incrementIndex p) (maxHosts p 32).toNat

/-- One entry of addressPool (line 138).  The Go map is map[*net.IP]bool,
so a map key is the pointer to a goroutine's task-local ip variable:
ptr records that storage identity (one fresh cell per dispatched task,
numbered by dispatch position), addr its contents, used the verdict. -/
structure PoolEntry where
  ptr : Nat
  addr : List Nat
  used : Bool
deriving DecidableEq

/-- The map write addressPool[&ip] = used of line 154: a Go map assignment
keyed by the pointer. -/
def poolInsert (pool : List PoolEntry) (e : PoolEntry) : List PoolEntry :=
  if pool.any (fun x => x.ptr == e.ptr) then
    pool.map (fun x => if x.ptr == e.ptr then e else x)
  else pool ++ [e]

/-- The goroutine body of lines 146-156 for the i-th dispatched task: probe
the i-th dispatched address; on a probe error return and write nothing,
otherwise produce the pool write.  probe a = none models pingAddress
returning an error for address a. -/
def taskOutcome (probe : List Nat → Option Bool) (addrs : List (List Nat))
    (i : Nat) : Option PoolEntry :=
  match addrs.get? i with
  | none => none
  | some a =>
    match probe a with
    | none => none
    | some used => some ⟨i, a, used⟩

/-- The pool contents once every dispatched task has completed (wg.Wait,
line 158), where order is the schedule in which the tasks performed
their mutex-serialized map writes. -/
def runPool (probe : List Nat → Option Bool) (addrs : List (List Nat))
    (order : List Nat) : List PoolEntry :=
  order.foldl
    (fun pool i =>
      match taskOutcome probe addrs i with
      | none => pool
      | some e => poolInsert pool e)
    []

/-- Result of analyze (lines 129-161): the format error of line 132, the
index-out-of-range crash of the enumeration loop, or the returned
pool. -/
inductive AnalyzeResult where
  | invalidAddressFormat : AnalyzeResult
  | panicked : AnalyzeResult
  | ok : List PoolEntry → AnalyzeResult
deriving DecidableEq

/-- analyze (lines 129-161) under a probe oracle: parse the CIDR string,
enumerate the hosts, fan out one task per dispatched address, join all
tasks, return the pool. -/
def analyze (probe : List Nat → Option Bool) (s : String) : AnalyzeResult :=
  match parseCIDR s with
  | none => .invalidAddressFormat
  | some (network, p) =>
    match dispatchList network p with
    | (addrs, panicked) =>
      if panicked then .panicked
      else .ok (runPool probe addrs (List.range addrs.length))

/-- The pool of an ok result (empty otherwise). -/
def poolOf : AnalyzeResult → List PoolEntry
  | .ok pool => pool
  | _ => []

/-- The pinger configuration of lines 166-167. -/
structure PingerConfig where
  count : Nat
  timeoutSeconds : Nat
deriving DecidableEq

/-- pinger.Count = 2 echo attempts, pinger.Timeout = 5 seconds
(lines 166-167). -/
def pingerSettings : PingerConfig := ⟨2, 5⟩

/-- pingAddress (lines 163-179) given the outcome of pinger.Run: a
transport error is propagated with no reachability verdict; otherwise
reachable exactly when PacketsRecv > 0. -/
def pingAddress (runOutcome : Except String Nat) : Except String Bool :=
  match runOutcome with
  | .error e => .error e
  | .ok packetsRecv => .ok (decide (packetsRecv > 0))

/-- Big-endian numeric value of a 4-byte address, used to compare
dispatched addresses with the network and broadcast addresses of the
parsed block. -/
def addrVal (a : List Nat) : Nat :=
  ((a.getD 0 0 * 256 + a.getD 1 0) * 256 + a.getD 2 0) * 256 + a.getD 3 0

/-- Invariant used in the proofs: a 4-byte address all of whose bytes from
position idx on are at most 254 (the enumeration loop preserves it, all
masked network addresses satisfy it at the starting index). -/
def suffixOK (a : List Nat) (idx : Nat) : Prop :=
  a.length = 4 ∧ ∀ j, idx ≤ j → j < 4 → a.getD j 0 ≤ 254

/-- Offset of the first entry differing from 254 (the carry target as claim
C3 describes it: advance rightward while the current byte equals
254). -/
def firstNon254 : List Nat → Option Nat
  | [] => none
  | b :: rest => if b = 254 then (firstNon254 rest).map (· + 1) else some 0

/-- Claim C3's description of increment, as amended: a no-op exactly when
called at start position 3 with the byte at index 3 equal to 255;
otherwise add 1 (modulo 256) to the first byte at or after the start
position that differs from 254, and panic (none) when every position
from the start to the end of the slice holds 254. -/
def incrementSpec (address : List Nat) (lastOctet : Nat) : Option (List Nat) :=
  if lastOctet = 3 ∧ address.getD 3 0 = 255 then some address
  else
    match firstNon254 (address.drop lastOctet) with
    | none => none
    | some off =>
      some (address.set (lastOctet + off)
        ((address.getD (lastOctet + off) 0 + 1) % 256))

/-! ### Basic list helpers -/

theorem getD_set_self : ∀ (l : List Nat) (i v : Nat), i < l.length →
    (l.set i v).getD i 0 = v
  | [], i, v, h => absurd h (by simp)
  | _ :: _, 0, _, _ => rfl
  | _ :: l, i + 1, v, h => getD_set_self l i v (by simpa using h)

theorem getD_set_ne : ∀ (l : List Nat) (i j v : Nat), i ≠ j →
    (l.set i v).getD j 0 = l.getD j 0
  | [], _, _, _, _ => by simp
  | _ :: _, 0, 0, _, h => absurd rfl h
  | _ :: _, 0, _ + 1, _, _ => rfl
  | _ :: _, _ + 1, 0, _, _ => rfl
  | _ :: l, i + 1, j + 1, v, h => getD_set_ne l i j v (fun e => h (by omega))

theorem getD_drop : ∀ (l : List Nat) (j k : Nat),
    (l.drop j).getD k 0 = l.getD (j + k) 0
  | _, 0, _ => by simp
  | [], _ + 1, _ => by simp
  | _ :: l, j + 1, k => by
    rw [Nat.succ_add]
    exact getD_drop l j k

/-! ### The carry scan -/

theorem scanFrom_eq_firstNon254 : ∀ (l : List Nat) (s : Nat),
    scanFrom l s = (firstNon254 l).map (s + ·)
  | [], _ => rfl
  | b :: rest, s => by
    by_cases hb : b = 254
    · have ih := scanFrom_eq_firstNon254 rest (s + 1)
      simp only [scanFrom, firstNon254, if_pos hb, ih, Option.map_map]
      cases firstNon254 rest
      · simp
      · simp
        omega
    · simp [scanFrom, firstNon254, hb]

theorem scanFrom_bounds : ∀ (l : List Nat) (s i : Nat), scanFrom l s = some i →
    s ≤ i ∧ i - s < l.length ∧ l.getD (i - s) 0 ≠ 254
  | [], s, i, h => by simp [scanFrom] at h
  | b :: rest, s, i, h => by
    by_cases hb : b = 254
    · rw [scanFrom, if_pos hb] at h
      obtain ⟨h1, h2, h3⟩ := scanFrom_bounds rest (s + 1) i h
      refine ⟨by omega, by simp; omega, ?_⟩
      have hd : i - s = (i - (s + 1)) + 1 := by omega
      rw [hd]
      exact h3
    · rw [scanFrom, if_neg hb] at h
      injection h with h
      subst h
      exact ⟨Nat.le_refl s, by simp, by simpa using hb⟩

/-! ### Single increment steps at concrete starting indices -/

theorem increment_idx3_lt (b0 b1 b2 b3 : Nat) (h : b3 < 254) :
    increment [b0, b1, b2, b3] 3 1 = some [b0, b1, b2, b3 + 1] := by
  have hne : b3 ≠ 254 := by omega
  have h255 : b3 ≠ 255 := by omega
  simp [increment, scanFrom, hne, h255, List.getD,
    Nat.mod_eq_of_lt (by omega : b3 + 1 < 256)]

theorem increment_idx2_lt (b0 b1 b2 b3 : Nat) (h : b2 < 254) :
    increment [b0, b1, b2, b3] 2 1 = some [b0, b1, b2 + 1, b3] := by
  have hne : b2 ≠ 254 := by omega
  simp [increment, scanFrom, hne, List.getD,
    Nat.mod_eq_of_lt (by omega : b2 + 1 < 256)]

theorem increment_idx2_carry (b0 b1 b3 : Nat) (h : b3 < 254) :
    increment [b0, b1, 254, b3] 2 1 = some [b0, b1, 254, b3 + 1] := by
  have hne : b3 ≠ 254 := by omega
  have h255 : b3 ≠ 255 := by omega
  simp [increment, scanFrom, hne, h255, List.getD,
    Nat.mod_eq_of_lt (by omega : b3 + 1 < 256)]

theorem increment_idx2_panic (b0 b1 : Nat) :
    increment [b0, b1, 254, 254] 2 1 = none := by
  simp [increment, scanFrom, List.getD]

theorem increment_idx1_lt (b0 b1 b2 b3 : Nat) (h : b1 < 254) :
    increment [b0, b1, b2, b3] 1 1 = some [b0, b1 + 1, b2, b3] := by
  have hne : b1 ≠ 254 := by omega
  simp [increment, scanFrom, hne, List.getD,
    Nat.mod_eq_of_lt (by omega : b1 + 1 < 256)]

theorem increment_idx1_carry2 (b0 b2 b3 : Nat) (h : b2 < 254) :
    increment [b0, 254, b2, b3] 1 1 = some [b0, 254, b2 + 1, b3] := by
  have hne : b2 ≠ 254 := by omega
  simp [increment, scanFrom, hne, List.getD,
    Nat.mod_eq_of_lt (by omega : b2 + 1 < 256)]

theorem increment_idx1_carry3 (b0 b3 : Nat) (h : b3 < 254) :
    increment [b0, 254, 254, b3] 1 1 = some [b0, 254, 254, b3 + 1] := by
  have hne : b3 ≠ 254 := by omega
  have h255 : b3 ≠ 255 := by omega
  simp [increment, scanFrom, hne, h255, List.getD,
    Nat.mod_eq_of_lt (by omega : b3 + 1 < 256)]

theorem increment_idx1_panic (b0 : Nat) :
    increment [b0, 254, 254, 254] 1 1 = none := by
  simp [increment, scanFrom, List.getD]

theorem increment_idx0_lt (b0 b1 b2 b3 : Nat) (h : b0 < 254) :
    increment [b0, b1, b2, b3] 0 1 = some [b0 + 1, b1, b2, b3] := by
  have hne : b0 ≠ 254 := by omega
  simp [increment, scanFrom, hne, List.getD,
    Nat.mod_eq_of_lt (by omega : b0 + 1 < 256)]

theorem increment_idx0_carry1 (b1 b2 b3 : Nat) (h : b1 < 254) :
    increment [254, b1, b2, b3] 0 1 = some [254, b1 + 1, b2, b3] := by
  have hne : b1 ≠ 254 := by omega
  simp [increment, scanFrom, hne, List.getD,
    Nat.mod_eq_of_lt (by omega : b1 + 1 < 256)]

theorem increment_idx0_carry2 (b2 b3 : Nat) (h : b2 < 254) :
    increment [254, 254, b2, b3] 0 1 = some [254, 254, b2 + 1, b3] := by
  have hne : b2 ≠ 254 := by omega
  simp [increment, scanFrom, hne, List.getD,
    Nat.mod_eq_of_lt (by omega : b2 + 1 < 256)]

theorem increment_idx0_carry3 (b3 : Nat) (h : b3 < 254) :
    increment [254, 254, 254, b3] 0 1 = some [254, 254, 254, b3 + 1] := by
  have hne : b3 ≠ 254 := by omega
  have h255 : b3 ≠ 255 := by omega
  simp [increment, scanFrom, hne, h255, List.getD,
    Nat.mod_eq_of_lt (by omega : b3 + 1 < 256)]

theorem increment_idx0_panic :
    increment [254, 254, 254, 254] 0 1 = none := by
  simp [increment, scanFrom, List.getD]

/-! ### The enumeration loop panics whenever the carry scan can exhaust
the address -/

theorem enum_panics_idx2 : ∀ (n b0 b1 b2 b3 : Nat), b2 ≤ 254 → b3 ≤ 254 →
    (254 - b2) + (254 - b3) + 1 ≤ n → (enumHosts [b0, b1, b2, b3] 2 n).2 = true := by
  intro n
  induction n with
  | zero => intro b0 b1 b2 b3 h2 h3 hn; omega
  | succ n ih =>
    intro b0 b1 b2 b3 h2 h3 hn
    rcases Nat.lt_or_ge b2 254 with hlt | hge
    · have hstep := increment_idx2_lt b0 b1 b2 b3 hlt
      have hrec := ih b0 b1 (b2 + 1) b3 (by omega) h3 (by omega)
      simp only [enumHosts, hstep]
      rcases hE : enumHosts [b0, b1, b2 + 1, b3] 2 n with ⟨rest, pk⟩
      rw [hE] at hrec
      simpa using hrec
    · have hb2 : b2 = 254 := by omega
      subst hb2
      rcases Nat.lt_or_ge b3 254 with hlt3 | hge3
      · have hstep := increment_idx2_carry b0 b1 b3 hlt3
        have hrec := ih b0 b1 254 (b3 + 1) (by omega) (by omega) (by omega)
        simp only [enumHosts, hstep]
        rcases hE : enumHosts [b0, b1, 254, b3 + 1] 2 n with ⟨rest, pk⟩
        rw [hE] at hrec
        simpa using hrec
      · have hb3 : b3 = 254 := by omega
        subst hb3
        simp only [enumHosts, increment_idx2_panic]

theorem enum_panics_idx1 : ∀ (n b0 b1 b2 b3 : Nat), b1 ≤ 254 → b2 ≤ 254 →
    b3 ≤ 254 → (254 - b1) + (254 - b2) + (254 - b3) + 1 ≤ n →
    (enumHosts [b0, b1, b2, b3] 1 n).2 = true := by
  intro n
  induction n with
  | zero => intro b0 b1 b2 b3 h1 h2 h3 hn; omega
  | succ n ih =>
    intro b0 b1 b2 b3 h1 h2 h3 hn
    rcases Nat.lt_or_ge b1 254 with hlt1 | hge1
    · have hstep := increment_idx1_lt b0 b1 b2 b3 hlt1
      have hrec := ih b0 (b1 + 1) b2 b3 (by omega) h2 h3 (by omega)
      simp only [enumHosts, hstep]
      rcases hE : enumHosts [b0, b1 + 1, b2, b3] 1 n with ⟨rest, pk⟩
      rw [hE] at hrec
      simpa using hrec
    · have hb1 : b1 = 254 := by omega
      subst hb1
      rcases Nat.lt_or_ge b2 254 with hlt2 | hge2
      · have hstep := increment_idx1_carry2 b0 b2 b3 hlt2
        have hrec := ih b0 254 (b2 + 1) b3 (by omega) (by omega) h3 (by omega)
        simp only [enumHosts, hstep]
        rcases hE : enumHosts [b0, 254, b2 + 1, b3] 1 n with ⟨rest, pk⟩
        rw [hE] at hrec
        simpa using hrec
      · have hb2 : b2 = 254 := by omega
        subst hb2
        rcases Nat.lt_or_ge b3 254 with hlt3 | hge3
        · have hstep := increment_idx1_carry3 b0 b3 hlt3
          have hrec := ih b0 254 254 (b3 + 1) (by omega) (by omega) (by omega) (by omega)
          simp only [enumHosts, hstep]
          rcases hE : enumHosts [b0, 254, 254, b3 + 1] 1 n with ⟨rest, pk⟩
          rw [hE] at hrec
          simpa using hrec
        · have hb3 : b3 = 254 := by omega
          subst hb3
          simp only [enumHosts, increment_idx1_panic]

theorem enum_panics_idx0 : ∀ (n b0 b1 b2 b3 : Nat), b0 ≤ 254 → b1 ≤ 254 →
    b2 ≤ 254 → b3 ≤ 254 →
    (254 - b0) + (254 - b1) + (254 - b2) + (254 - b3) + 1 ≤ n →
    (enumHosts [b0, b1, b2, b3] 0 n).2 = true := by
  intro n
  induction n with
  | zero => intro b0 b1 b2 b3 h0 h1 h2 h3 hn; omega
  | succ n ih =>
    intro b0 b1 b2 b3 h0 h1 h2 h3 hn
    rcases Nat.lt_or_ge b0 254 with hlt0 | hge0
    · have hstep := increment_idx0_lt b0 b1 b2 b3 hlt0
      have hrec := ih (b0 + 1) b1 b2 b3 (by omega) h1 h2 h3 (by omega)
      simp only [enumHosts, hstep]
      rcases hE : enumHosts [b0 + 1, b1, b2, b3] 0 n with ⟨rest, pk⟩
      rw [hE] at hrec
      simpa using hrec
    · have hb0 : b0 = 254 := by omega
      subst hb0
      rcases Nat.lt_or_ge b1 254 with hlt1 | hge1
      · have hstep := increment_idx0_carry1 b1 b2 b3 hlt1
        have hrec := ih 254 (b1 + 1) b2 b3 (by omega) (by omega) h2 h3 (by omega)
        simp only [enumHosts, hstep]
        rcases hE : enumHosts [254, b1 + 1, b2, b3] 0 n with ⟨rest, pk⟩
        rw [hE] at hrec
        simpa using hrec
      · have hb1 : b1 = 254 := by omega
        subst hb1
        rcases Nat.lt_or_ge b2 254 with hlt2 | hge2
        · have hstep := increment_idx0_carry2 b2 b3 hlt2
          have hrec := ih 254 254 (b2 + 1) b3 (by omega) (by omega) (by omega) h3 (by omega)
          simp only [enumHosts, hstep]
          rcases hE : enumHosts [254, 254, b2 + 1, b3] 0 n with ⟨rest, pk⟩
          rw [hE] at hrec
          simpa using hrec
        · have hb2 : b2 = 254 := by omega
          subst hb2
          rcases Nat.lt_or_ge b3 254 with hlt3 | hge3
          · have hstep := increment_idx0_carry3 b3 hlt3
            have hrec := ih 254 254 254 (b3 + 1) (by omega) (by omega) (by omega)
              (by omega) (by omega)
            simp only [enumHosts, hstep]
            rcases hE : enumHosts [254, 254, 254, b3 + 1] 0 n with ⟨rest, pk⟩
            rw [hE] at hrec
            simpa using hrec
          · have hb3 : b3 = 254 := by omega
            subst hb3
            simp only [enumHosts, increment_idx0_panic]

/-! ### Complete enumeration when the varying byte is byte 3 -/

theorem enum_complete_idx3 : ∀ (n b0 b1 b2 b3 : Nat), b3 + n ≤ 254 →
    enumHosts [b0, b1, b2, b3] 3 n =
      ((List.range n).map (fun j => [b0, b1, b2, b3 + (j + 1)]), false) := by
  intro n
  induction n with
  | zero => intro b0 b1 b2 b3 h; simp [enumHosts]
  | succ n ih =>
    intro b0 b1 b2 b3 h
    have hstep := increment_idx3_lt b0 b1 b2 b3 (by omega)
    simp only [enumHosts, hstep]
    rw [ih b0 b1 b2 (b3 + 1) (by omega)]
    rw [List.range_succ_eq_map, List.map_cons, List.map_map]
    have hfun : ((fun j => [b0, b1, b2, b3 + (j + 1)]) ∘ Nat.succ) =
        (fun j : Nat => [b0, b1, b2, (b3 + 1) + (j + 1)]) := by
      funext j
      simp [Function.comp]
      omega
    rw [hfun]

/-! ### Parser inversion: what a successful parse guarantees -/

theorem parseField_le (cs : List Char) (v : Nat) (r : List Char)
    (h : parseField cs = some (v, r)) : v ≤ 255 := by
  unfold parseField at h
  split at h
  · cases h
  split_ifs at h with h1 h2
  simp only [Option.some.injEq, Prod.mk.injEq] at h
  omega

theorem parseMaskLen_le (cs : List Char) (p : Nat)
    (h : parseMaskLen cs = some p) : p ≤ 32 := by
  unfold parseMaskLen at h
  split at h
  · cases h
  split_ifs at h with h1
  simp only [Option.some.injEq] at h
  omega

theorem parseIPv4_le (cs : List Char) (a b c d : Nat)
    (h : parseIPv4 cs = some (a, b, c, d)) :
    a ≤ 255 ∧ b ≤ 255 ∧ c ≤ 255 ∧ d ≤ 255 := by
  unfold parseIPv4 at h
  split at h
  · cases h
  rename_i a1 r1 h1
  split at h
  · cases h
  rename_i r2 h2
  split at h
  · cases h
  rename_i b1 r3 h3
  split at h
  · cases h
  rename_i r4 h4
  split at h
  · cases h
  rename_i c1 r5 h5
  split at h
  · cases h
  rename_i r6 h6
  split at h
  · cases h
  rename_i d1 r7 h7
  split_ifs at h with h8
  simp only [Option.some.injEq, Prod.mk.injEq] at h
  obtain ⟨ha, hb, hc, hd⟩ := h
  subst ha
  subst hb
  subst hc
  subst hd
  exact ⟨parseField_le cs a1 r1 h1, parseField_le r2 b1 r3 h3,
    parseField_le r4 c1 r5 h5, parseField_le r6 d1 r7 h7⟩

theorem parseCIDR_inv (s : String) (network : List Nat) (p : Nat)
    (h : parseCIDR s = some (network, p)) :
    p ≤ 32 ∧ ∃ a b c d, a ≤ 255 ∧ b ≤ 255 ∧ c ≤ 255 ∧ d ≤ 255 ∧
      network = maskApply a b c d p := by
  unfold parseCIDR at h
  split at h
  · cases h
  rename_i addrPart maskPart h1
  split at h
  · cases h
  rename_i a b c d h2
  split at h
  · cases h
  rename_i q h3
  simp only [Option.some.injEq, Prod.mk.injEq] at h
  obtain ⟨hnet, hq⟩ := h
  subst hq
  obtain ⟨ha, hb, hc, hd⟩ := parseIPv4_le addrPart a b c d h2
  exact ⟨parseMaskLen_le maskPart _ h3, a, b, c, d, ha, hb, hc, hd, hnet.symm⟩

/-! ### Masked network bytes -/

theorem maskByte_le (p j b : Nat) : maskByte p j b ≤ b :=
  Nat.div_mul_le_self b _

theorem onesInByte_le_7 (p j : Nat) (h : p ≤ 8 * j + 7) : onesInByte p j ≤ 7 := by
  unfold onesInByte
  omega

theorem maskByte_le_254 (p j b : Nat) (ho : onesInByte p j ≤ 7) (hb : b ≤ 255) :
    maskByte p j b ≤ 254 := by
  unfold maskByte
  set s := 8 - onesInByte p j with hs
  have hs1 : s ≠ 0 := by omega
  have hdvd : 2 ∣ b / 2 ^ s * 2 ^ s := (dvd_pow_self 2 hs1).mul_left _
  have hle : b / 2 ^ s * 2 ^ s ≤ b := Nat.div_mul_le_self b _
  omega

theorem maskByte_eq_zero (p j b : Nat) (hp : p ≤ 8 * j) (hb : b ≤ 255) :
    maskByte p j b = 0 := by
  unfold maskByte onesInByte
  have h0 : p - 8 * j = 0 := by omega
  rw [h0]
  norm_num
  exact Nat.div_eq_of_lt (by omega)

/-! ### The host count -/

theorem maxHosts_toNat_ge (p m : Nat) (h : m + 2 ≤ 2 ^ (32 - p)) :
    m ≤ (maxHosts p 32).toNat := by
  unfold maxHosts
  have hpow : ((2 : Int) ^ (32 - p)) = ((2 ^ (32 - p) : Nat) : Int) := by
    push_cast
    ring
  rw [hpow]
  omega

/-! ### The enumeration loop panics for every network of size 23 bits or
less; it completes and enumerates the block for 24 to 30 bits -/

theorem dispatch_panics (s : String) (network : List Nat) (p : Nat)
    (hp : parseCIDR s = some (network, p)) (hle : p ≤ 23) :
    (dispatchList network p).2 = true := by
  obtain ⟨hp32, a, b, c, d, ha, hb, hc, hd, hnet⟩ := parseCIDR_inv s network p hp
  subst hnet
  unfold dispatchList maskApply incrementIndex
  have h8 : p / 8 = 0 ∨ p / 8 = 1 ∨ p / 8 = 2 := by omega
  rcases h8 with h8 | h8 | h8 <;> rw [h8]
  · have hN : 1017 ≤ (maxHosts p 32).toNat := by
      apply maxHosts_toNat_ge
      have hpw : 2 ^ 25 ≤ 2 ^ (32 - p) := Nat.pow_le_pow_right (by norm_num) (by omega)
      omega
    apply enum_panics_idx0
    · exact maskByte_le_254 p 0 a (onesInByte_le_7 p 0 (by omega)) ha
    · exact maskByte_le_254 p 1 b (onesInByte_le_7 p 1 (by omega)) hb
    · exact maskByte_le_254 p 2 c (onesInByte_le_7 p 2 (by omega)) hc
    · exact maskByte_le_254 p 3 d (onesInByte_le_7 p 3 (by omega)) hd
    · omega
  · have hN : 763 ≤ (maxHosts p 32).toNat := by
      apply maxHosts_toNat_ge
      have hpw : 2 ^ 17 ≤ 2 ^ (32 - p) := Nat.pow_le_pow_right (by norm_num) (by omega)
      omega
    apply enum_panics_idx1
    · exact maskByte_le_254 p 1 b (onesInByte_le_7 p 1 (by omega)) hb
    · exact maskByte_le_254 p 2 c (onesInByte_le_7 p 2 (by omega)) hc
    · exact maskByte_le_254 p 3 d (onesInByte_le_7 p 3 (by omega)) hd
    · omega
  · have hN : 509 ≤ (maxHosts p 32).toNat := by
      apply maxHosts_toNat_ge
      have hpw : 2 ^ 9 ≤ 2 ^ (32 - p) := Nat.pow_le_pow_right (by norm_num) (by omega)
      omega
    apply enum_panics_idx2
    · exact maskByte_le_254 p 2 c (onesInByte_le_7 p 2 (by omega)) hc
    · exact maskByte_le_254 p 3 d (onesInByte_le_7 p 3 (by omega)) hd
    · omega

theorem dispatch_complete (s : String) (network : List Nat) (p : Nat)
    (hp : parseCIDR s = some (network, p)) (h24 : 24 ≤ p) (h30 : p ≤ 30) :
    ∃ w x y z, network = [w, x, y, z] ∧
      (maxHosts p 32).toNat = 2 ^ (32 - p) - 2 ∧
      z + 2 ^ (32 - p) ≤ 256 ∧
      dispatchList network p =
        ((List.range (2 ^ (32 - p) - 2)).map (fun j => [w, x, y, z + (j + 1)]),
          false) := by
  obtain ⟨hp32, a, b, c, d, ha, hb, hc, hd, hnet⟩ := parseCIDR_inv s network p hp
  subst hnet
  have hk2 : 2 ≤ 32 - p := by omega
  have hk8 : 32 - p ≤ 8 := by omega
  set k := 32 - p with hkdef
  have h4 : 4 ≤ 2 ^ k := le_trans (by norm_num) (Nat.pow_le_pow_right (by norm_num) hk2)
  have h256 : 2 ^ k ≤ 256 := le_trans (Nat.pow_le_pow_right (by norm_num) hk8) (by norm_num)
  have hs : 8 - onesInByte p 3 = k := by
    unfold onesInByte
    omega
  have hz : maskByte p 3 d = d / 2 ^ k * 2 ^ k := by
    unfold maskByte
    rw [hs]
  have hpowsplit : 2 ^ (8 - k) * 2 ^ k = 256 := by
    rw [← pow_add]
    norm_num [show 8 - k + k = 8 by omega]
  have hdlt : d / 2 ^ k < 2 ^ (8 - k) := by
    rw [Nat.div_lt_iff_lt_mul (Nat.pos_pow_of_pos k (by norm_num))]
    omega
  have hzb : d / 2 ^ k * 2 ^ k + 2 ^ k ≤ 256 := by
    have h1 : d / 2 ^ k + 1 ≤ 2 ^ (8 - k) := hdlt
    have h2 : (d / 2 ^ k + 1) * 2 ^ k ≤ 2 ^ (8 - k) * 2 ^ k :=
      Nat.mul_le_mul_right _ h1
    rw [add_mul, one_mul] at h2
    omega
  have hNeq : (maxHosts p 32).toNat = 2 ^ k - 2 := by
    unfold maxHosts
    have hpow : ((2 : Int) ^ (32 - p)) = ((2 ^ (32 - p) : Nat) : Int) := by
      push_cast
      ring
    rw [hpow, ← hkdef]
    omega
  have hidx : incrementIndex p = 3 := by
    unfold incrementIndex
    omega
  refine ⟨maskByte p 0 a, maskByte p 1 b, maskByte p 2 c, maskByte p 3 d,
    rfl, hNeq, by omega, ?_⟩
  unfold dispatchList maskApply
  rw [hidx, hNeq, hz]
  exact enum_complete_idx3 (2 ^ k - 2) (maskByte p 0 a) (maskByte p 1 b)
    (maskByte p 2 c) (d / 2 ^ k * 2 ^ k) (by omega)

/-! ### Unfolding analyze after a successful parse -/

theorem analyze_eq (probe : List Nat → Option Bool) (s : String)
    (network : List Nat) (p : Nat) (hp : parseCIDR s = some (network, p)) :
    analyze probe s =
      if (dispatchList network p).2 then .panicked
      else .ok (runPool probe (dispatchList network p).1
        (List.range (dispatchList network p).1.length)) := by
  unfold analyze
  rw [hp]

/-! ### The pool built from the serialized task writes -/

theorem taskOutcome_some (probe : List Nat → Option Bool)
    (addrs : List (List Nat)) (i : Nat) (e : PoolEntry)
    (h : taskOutcome probe addrs i = some e) :
    e.ptr = i ∧ addrs.get? i = some e.addr ∧ probe e.addr = some e.used := by
  unfold taskOutcome at h
  split at h
  · cases h
  rename_i a ha
  split at h
  · cases h
  rename_i u hu
  simp only [Option.some.injEq] at h
  subst h
  exact ⟨rfl, ha, hu⟩

theorem taskOutcome_none (probe : List Nat → Option Bool)
    (addrs : List (List Nat)) (herr : ∀ a, probe a = none) (i : Nat) :
    taskOutcome probe addrs i = none := by
  unfold taskOutcome
  split
  · rfl
  rename_i a ha
  rw [herr a]

theorem poolInsert_fresh (pool : List PoolEntry) (e : PoolEntry)
    (h : ∀ x ∈ pool, x.ptr ≠ e.ptr) : poolInsert pool e = pool ++ [e] := by
  have hany : pool.any (fun x => x.ptr == e.ptr) = false := by
    simp only [List.any_eq_false, beq_iff_eq]
    exact h
  unfold poolInsert
  rw [hany]
  simp

theorem runPool_go (probe : List Nat → Option Bool) (addrs : List (List Nat)) :
    ∀ (order : List Nat) (acc : List PoolEntry), order.Nodup →
      (∀ e ∈ acc, e.ptr ∉ order) →
      List.foldl
        (fun pool i =>
          match taskOutcome probe addrs i with
          | none => pool
          | some e => poolInsert pool e) acc order =
      acc ++ order.filterMap (taskOutcome probe addrs)
  | [], acc, _, _ => by simp
  | i :: order, acc, hnd, hacc => by
    have hndtl : order.Nodup := (List.nodup_cons.mp hnd).2
    have hihd : i ∉ order := (List.nodup_cons.mp hnd).1
    simp only [List.foldl_cons, List.filterMap_cons]
    rcases hout : taskOutcome probe addrs i with _ | e
    · dsimp only
      rw [runPool_go probe addrs order acc hndtl
        (fun x hx => fun hmem => hacc x hx (List.mem_cons_of_mem i hmem))]
    · dsimp only
      have hptr : e.ptr = i := (taskOutcome_some probe addrs i e hout).1
      rw [poolInsert_fresh acc e
        (fun x hx => by
          rw [hptr]
          intro hc
          exact hacc x hx (hc ▸ List.mem_cons_self i order))]
      rw [runPool_go probe addrs order (acc ++ [e]) hndtl
        (fun x hx => by
          rcases List.mem_append.mp hx with hxa | hxe
          · exact fun hmem => hacc x hxa (List.mem_cons_of_mem i hmem)
          · simp only [List.mem_singleton] at hxe
            subst hxe
            rw [hptr]
            exact hihd)]
      simp

theorem runPool_eq_filterMap (probe : List Nat → Option Bool)
    (addrs : List (List Nat)) (order : List Nat) (h : order.Nodup) :
    runPool probe addrs order = order.filterMap (taskOutcome probe addrs) := by
  unfold runPool
  have hgo := runPool_go probe addrs order [] h (by simp)
  simpa using hgo

theorem runPool_all_errors (probe : List Nat → Option Bool)
    (addrs : List (List Nat)) (order : List Nat)
    (herr : ∀ a, probe a = none) : runPool probe addrs order = [] := by
  have hnone := taskOutcome_none probe addrs herr
  unfold runPool
  induction order with
  | nil => rfl
  | cons i order ih =>
    simp only [List.foldl_cons, hnone i]
    exact ih

theorem mem_runPool (probe : List Nat → Option Bool) (addrs : List (List Nat))
    (e : PoolEntry) (h : e ∈ runPool probe addrs (List.range addrs.length)) :
    addrs.get? e.ptr = some e.addr ∧ probe e.addr = some e.used ∧
      e.addr ∈ addrs := by
  rw [runPool_eq_filterMap probe addrs _ (List.nodup_range _)] at h
  rw [List.mem_filterMap] at h
  obtain ⟨i, hi, hout⟩ := h
  obtain ⟨hptr, hget, hprobe⟩ := taskOutcome_some probe addrs i e hout
  subst hptr
  have hmem : e.addr ∈ addrs := by
    rcases List.get?_eq_some.mp hget with ⟨hlt, hval⟩
    exact hval ▸ List.get_mem addrs _ _
  exact ⟨hget, hprobe, hmem⟩

theorem runPool_mem_of_success (probe : List Nat → Option Bool)
    (addrs : List (List Nat)) (i : Nat) (a : List Nat) (u : Bool)
    (hget : addrs.get? i = some a) (hprobe : probe a = some u) :
    (⟨i, a, u⟩ : PoolEntry) ∈ runPool probe addrs (List.range addrs.length) := by
  rw [runPool_eq_filterMap probe addrs _ (List.nodup_range _)]
  rw [List.mem_filterMap]
  refine ⟨i, ?_, ?_⟩
  · rw [List.mem_range]
    rcases List.get?_eq_some.mp hget with ⟨hlt, _⟩
    exact hlt
  · unfold taskOutcome
    rw [hget]
    dsimp only
    rw [hprobe]

theorem map_ptr_filterMap (probe : List Nat → Option Bool)
    (addrs : List (List Nat)) : ∀ (l : List Nat),
    ((l.filterMap (taskOutcome probe addrs)).map PoolEntry.ptr) =
      l.filter (fun i => (taskOutcome probe addrs i).isSome)
  | [] => rfl
  | i :: l => by
    rcases hout : taskOutcome probe addrs i with _ | e
    · simp only [List.filterMap_cons, hout, List.filter_cons, Option.isSome_none,
        Bool.false_eq_true, if_false]
      exact map_ptr_filterMap probe addrs l
    · have hptr := (taskOutcome_some probe addrs i e hout).1
      simp only [List.filterMap_cons, hout, List.filter_cons, Option.isSome_some,
        if_true, List.map_cons]
      rw [map_ptr_filterMap probe addrs l, hptr]

theorem map_addr_filterMap (probe : List Nat → Option Bool)
    (addrs : List (List Nat)) (g : Nat → List Nat)
    (hg : ∀ i e, taskOutcome probe addrs i = some e → e.addr = g i) :
    ∀ l : List Nat,
    ((l.filterMap (taskOutcome probe addrs)).map PoolEntry.addr) =
      (l.filter (fun i => (taskOutcome probe addrs i).isSome)).map g
  | [] => rfl
  | i :: l => by
    rcases hout : taskOutcome probe addrs i with _ | e
    · simp only [List.filterMap_cons, hout, List.filter_cons, Option.isSome_none,
        Bool.false_eq_true, if_false]
      exact map_addr_filterMap probe addrs g hg l
    · have haddr := hg i e hout
      simp only [List.filterMap_cons, hout, List.filter_cons, Option.isSome_some,
        if_true, List.map_cons]
      rw [map_addr_filterMap probe addrs g hg l, haddr]

theorem runPool_ptr_nodup (probe : List Nat → Option Bool)
    (addrs : List (List Nat)) :
    ((runPool probe addrs (List.range addrs.length)).map PoolEntry.ptr).Nodup := by
  rw [runPool_eq_filterMap probe addrs _ (List.nodup_range _),
    map_ptr_filterMap probe addrs]
  exact (List.nodup_range _).filter _

/-! ### The enumeration only moves the address upward -/

theorem increment_mono (a : List Nat) (idx : Nat) (b : List Nat)
    (hok : suffixOK a idx) (h : increment a idx 1 = some b) :
    suffixOK b idx ∧ (∀ j, j < idx → b.getD j 0 = a.getD j 0) ∧
      (∀ j, a.getD j 0 ≤ b.getD j 0) ∧ ∃ j, j < 4 ∧ a.getD j 0 < b.getD j 0 := by
  obtain ⟨hlen, hbytes⟩ := hok
  unfold increment at h
  split_ifs at h with hguard
  · obtain ⟨h3, h255⟩ := hguard
    subst h3
    have hc := hbytes 3 (le_refl 3) (by omega)
    omega
  · split at h
    · cases h
    rename_i i hscan
    obtain ⟨hsi, hslt, hsne⟩ := scanFrom_bounds (a.drop idx) idx i hscan
    rw [List.length_drop, hlen] at hslt
    rw [getD_drop] at hsne
    have hii : idx + (i - idx) = i := by omega
    rw [hii] at hsne
    have hi4 : i < 4 := by omega
    have hile : a.getD i 0 ≤ 254 := hbytes i hsi hi4
    have hmod : (a.getD i 0 + 1) % 256 = a.getD i 0 + 1 :=
      Nat.mod_eq_of_lt (by omega)
    simp only [Option.some.injEq] at h
    subst h
    rw [hmod]
    have hset := getD_set_self a i (a.getD i 0 + 1) (by omega)
    refine ⟨⟨by rw [List.length_set]; exact hlen, ?_⟩, ?_, ?_, ⟨i, hi4, ?_⟩⟩
    · intro j hj hj4
      by_cases hji : j = i
      · subst hji
        rw [hset]
        omega
      · rw [getD_set_ne a i j _ (fun e => hji e.symm)]
        exact hbytes j hj hj4
    · intro j hj
      rw [getD_set_ne a i j _ (by omega)]
    · intro j
      by_cases hji : j = i
      · subst hji
        rw [hset]
        omega
      · rw [getD_set_ne a i j _ (fun e => hji e.symm)]
    · rw [hset]
      omega

theorem enum_mem_ge (idx : Nat) : ∀ (n : Nat) (a x : List Nat), suffixOK a idx →
    x ∈ (enumHosts a idx n).1 →
    suffixOK x idx ∧ (∀ j, j < idx → x.getD j 0 = a.getD j 0) ∧
      (∀ j, a.getD j 0 ≤ x.getD j 0) ∧ ∃ j, j < 4 ∧ a.getD j 0 < x.getD j 0
  | 0, a, x, _, hx => by simp [enumHosts] at hx
  | n + 1, a, x, hok, hx => by
    rcases hinc : increment a idx 1 with _ | next
    · rw [show enumHosts a idx (n + 1) = ([], true) by
        simp only [enumHosts, hinc]] at hx
      simp at hx
    · obtain ⟨hoknext, hlow, hmono, j0, hj04, hj0⟩ :=
        increment_mono a idx next hok hinc
      rcases hE : enumHosts next idx n with ⟨rest, pk⟩
      rw [show enumHosts a idx (n + 1) = (next :: rest, pk) by
        simp only [enumHosts, hinc, hE]] at hx
      simp only [List.mem_cons] at hx
      rcases hx with hx | hx
      · subst hx
        exact ⟨hoknext, hlow, hmono, j0, hj04, hj0⟩
      · obtain ⟨hokx, hlowx, hmonox, j1, hj14, hj1⟩ :=
          enum_mem_ge idx n next x hoknext (by rw [hE]; exact hx)
        refine ⟨hokx, ?_, ?_, ⟨j0, hj04, lt_of_lt_of_le hj0 (hmonox j0)⟩⟩
        · intro j hj
          rw [hlowx j hj, hlow j hj]
        · intro j
          exact le_trans (hmono j) (hmonox j)

/-! ### Address values -/

theorem addrVal_lt (a x : List Nat)
    (hmono : ∀ j, a.getD j 0 ≤ x.getD j 0)
    (hstrict : ∃ j, j < 4 ∧ a.getD j 0 < x.getD j 0) : addrVal a < addrVal x := by
  obtain ⟨j, hj, hs⟩ := hstrict
  have h0 := hmono 0
  have h1 := hmono 1
  have h2 := hmono 2
  have h3 := hmono 3
  unfold addrVal
  interval_cases j <;> omega

theorem addrVal_ne_broadcast (x network : List Nat) (k : Nat)
    (hx3 : x.getD 3 0 ≤ 254) (hn3 : network.getD 3 0 = 0) (hk : 8 ≤ k) :
    addrVal x ≠ addrVal network + 2 ^ k - 1 := by
  have hdvd : (256 : Nat) ∣ 2 ^ k := by
    have hd := pow_dvd_pow 2 hk
    norm_num at hd
    exact hd
  obtain ⟨m, hm⟩ := hdvd
  have hpos : 0 < 2 ^ k := Nat.pos_pow_of_pos _ (by norm_num)
  rw [hm] at hpos
  unfold addrVal
  rw [hn3, hm]
  omega

theorem hostList_injective (w x y z : Nat) :
    Function.Injective (fun j : Nat => [w, x, y, z + (j + 1)]) := by
  intro j1 j2 h
  simp only [List.cons.injEq, and_true, true_and] at h
  omega

/-! ## The claims -/

/-- Claim C3 (corrected), counterexample: the claim says increment is a
no-op (refuses to increment) once the last byte (index 3) equals 255.
The code's guard only fires when the function is called with start
position 3: with start position 0 and last byte 255 it increments byte 0,
and when the carry scan reaches a last byte holding 255 it wraps it to 0
modulo 256 instead of refusing. -/
theorem increment_not_noop_when_last_byte_255 :
    increment [0, 0, 0, 255] 0 1 = some [1, 0, 0, 255] ∧
    increment [0, 0, 254, 255] 2 1 = some [0, 0, 254, 0] := by
  refine ⟨by decide, by decide⟩

/-- Claim C3, amended: increment adds 1 to the byte at index
floor(prefixBits / 8) — the index analyze passes is ones/8, integer
division — advancing the increment position rightward while the byte at
the current position equals 254; it is a no-op exactly when the starting
position is 3 and the byte at index 3 equals 255 (not whenever byte 3 is
255), the byte addition wraps modulo 256, and a scan that runs past the
end of the slice panics. -/
theorem increment_characterization :
    (∀ (address : List Nat) (lastOctet : Nat),
      increment address lastOctet 1 = incrementSpec address lastOctet) ∧
    (∀ ones : Nat, incrementIndex ones = ones / 8) := by
  refine ⟨?_, fun _ => rfl⟩
  intro address lastOctet
  unfold increment incrementSpec
  rw [scanFrom_eq_firstNon254]
  rcases firstNon254 (address.drop lastOctet) with _ | off <;> rfl

/-- Claim C1 (corrected), counterexample: 10.0.0.0/23 is a valid CIDR
string with host-bit count 9, so the claim requires 2^9 - 2 = 510
dispatched probes; instead the enumeration loop panics with an
index-out-of-range at iteration 509, after dispatching only 508
probes. -/
theorem enumeration_incomplete_slash23 :
    parseCIDR "10.0.0.0/23" = some ([10, 0, 0, 0], 23) ∧
    (dispatchList [10, 0, 0, 0] 23).2 = true ∧
    (dispatchList [10, 0, 0, 0] 23).1.length ≠ 2 ^ (32 - 23) - 2 := by
  refine ⟨by decide, by decide, by decide⟩

/-- Claim C1, amended: for every valid CIDR string whose host-bit count is
between 2 and 8 (prefix length 24 to 30), analyze enumerates exactly
2^(hostBits) - 2 pairwise distinct host addresses without panicking and
dispatches exactly one probe task per enumerated address (one task per
position of the dispatch list); for host-bit counts of 9 or more the
enumeration loop crashes with an index-out-of-range panic before
completing. -/
theorem host_enumeration_count_byte_aligned (probe : List Nat → Option Bool)
    (s : String) (network : List Nat) (p : Nat)
    (hp : parseCIDR s = some (network, p)) (h24 : 24 ≤ p) (h30 : p ≤ 30) :
    (dispatchList network p).2 = false ∧
    (dispatchList network p).1.length = 2 ^ (32 - p) - 2 ∧
    (dispatchList network p).1.Nodup ∧
    analyze probe s = .ok (runPool probe (dispatchList network p).1
      (List.range (dispatchList network p).1.length)) := by
  obtain ⟨w, x, y, z, hnet, hN, hzb, hdisp⟩ := dispatch_complete s network p hp h24 h30
  refine ⟨by rw [hdisp], ?_, ?_, ?_⟩
  · rw [hdisp]
    simp
  · rw [hdisp]
    exact List.Nodup.map (hostList_injective w x y z) (List.nodup_range _)
  · rw [analyze_eq probe s network p hp]
    have hpk : (dispatchList network p).2 = false := by rw [hdisp]
    rw [hpk]
    simp

/-- Witness for the amended C1 at the concrete input 10.0.0.0/28. -/
theorem host_enumeration_count_byte_aligned_witness :
    parseCIDR "10.0.0.0/28" = some ([10, 0, 0, 0], 28) ∧
    ((dispatchList [10, 0, 0, 0] 28).2 = false ∧
     (dispatchList [10, 0, 0, 0] 28).1.length = 2 ^ (32 - 28) - 2 ∧
     (dispatchList [10, 0, 0, 0] 28).1.Nodup ∧
     analyze (fun _ => some true) "10.0.0.0/28" =
       .ok (runPool (fun _ => some true) (dispatchList [10, 0, 0, 0] 28).1
         (List.range (dispatchList [10, 0, 0, 0] 28).1.length))) :=
  ⟨by decide, host_enumeration_count_byte_aligned (fun _ => some true)
    "10.0.0.0/28" [10, 0, 0, 0] 28 (by decide) (by decide) (by decide)⟩

/-- Claim C6 (corrected), counterexample: 192.168.0.0/16 is a valid CIDR
string, yet with every probe erroring the call does not return an empty
pool with a nil error — it crashes with the index-out-of-range panic of
the enumeration loop. -/
theorem all_probes_error_crash_slash16 :
    analyze (fun _ => none) "192.168.0.0/16" = .panicked ∧
    analyze (fun _ => none) "192.168.0.0/16" ≠ .ok ([] : List PoolEntry) := by
  refine ⟨by decide, by decide⟩

/-- Claim C6, amended: for every valid CIDR string with prefix length at
least 24 (so the enumeration loop completes), if every dispatched probe
errors, analyze returns an empty pool and no error; per-probe errors
never contribute an entry, and only CIDR-format validity produces an
error value.  For prefix lengths up to 23 the loop crashes before
returning. -/
theorem all_probes_error_empty_pool (probe : List Nat → Option Bool)
    (s : String) (network : List Nat) (p : Nat)
    (hp : parseCIDR s = some (network, p)) (h24 : 24 ≤ p)
    (herr : ∀ a, probe a = none) :
    analyze probe s = .ok [] := by
  obtain ⟨hp32, _, _, _, _, _, _, _, _, _⟩ := parseCIDR_inv s network p hp
  rw [analyze_eq probe s network p hp]
  rcases Nat.lt_or_ge 30 p with h30 | h30
  · have hdeg : p = 31 ∨ p = 32 := by omega
    have hdisp : dispatchList network p = ([], false) := by
      rcases hdeg with h | h <;> subst h <;> rfl
    rw [hdisp]
    rfl
  · obtain ⟨w, x, y, z, hnet, hN, hzb, hdisp⟩ := dispatch_complete s network p hp h24 h30
    have hpk : (dispatchList network p).2 = false := by rw [hdisp]
    rw [hpk]
    rw [runPool_all_errors probe _ _ herr]
    rfl

/-- Witness for the amended C6 at the concrete input 172.16.0.0/30. -/
theorem all_probes_error_empty_pool_witness :
    parseCIDR "172.16.0.0/30" = some ([172, 16, 0, 0], 30) ∧
    analyze (fun _ => none) "172.16.0.0/30" = .ok [] :=
  ⟨by decide, all_probes_error_empty_pool (fun _ => none) "172.16.0.0/30"
    [172, 16, 0, 0] 30 (by decide) (by decide) (fun a => rfl)⟩

/-- Claim C4 (code bug): the carry scan of increment advances past index 3
and reads address[4] — a Go index-out-of-range panic — whenever every
byte from the starting position on equals 254.  The enumeration loop
reaches such a state for every valid IPv4 CIDR with prefix length
at most 23, e.g. 10.0.0.0/16 at iteration 509. -/
theorem increment_scan_reads_out_of_bounds :
    increment [254, 254, 254, 254] 0 1 = none ∧
    increment [254, 254, 254, 254] 3 1 = none ∧
    parseCIDR "10.0.0.0/16" = some ([10, 0, 0, 0], 16) ∧
    (dispatchList [10, 0, 0, 0] 16).2 = true := by
  refine ⟨by decide, by decide, by decide, by decide⟩

/-- Claim C7 (confirmed): every input string that does not parse as an
address with a valid integer mask length makes analyze return the
InvalidAddressFormat error, producing no pool and dispatching no probe
(the result does not depend on the probe at all). -/
theorem invalid_format_aborts (probe : List Nat → Option Bool) (s : String)
    (h : parseCIDR s = none) : analyze probe s = .invalidAddressFormat := by
  unfold analyze
  rw [h]

/-- Witness for C7 at the concrete invalid input of the spec. -/
theorem invalid_format_aborts_witness :
    parseCIDR "not-an-address" = none ∧
    analyze (fun _ => some true) "not-an-address" = .invalidAddressFormat :=
  ⟨by decide, invalid_format_aborts (fun _ => some true) "not-an-address"
    (by decide)⟩

/-- Claim C8 (confirmed): the probe primitive is configured with
pinger.Count = 2 echo attempts and pinger.Timeout = 5 seconds for the
whole check; it reports reachable exactly when at least one reply was
received, unreachable when the check completed with zero replies, and
propagates an error (with no reachability verdict) when the check could
not be performed. -/
theorem ping_primitive_semantics :
    pingerSettings.count = 2 ∧ pingerSettings.timeoutSeconds = 5 ∧
    (∀ packetsRecv : Nat,
      (pingAddress (.ok packetsRecv) = .ok true ↔ 0 < packetsRecv) ∧
      (pingAddress (.ok packetsRecv) = .ok false ↔ packetsRecv = 0)) ∧
    (∀ e : String, pingAddress (.error e) = .error e) := by
  refine ⟨rfl, rfl, ?_, fun e => rfl⟩
  intro r
  unfold pingAddress
  constructor
  · simp
  · simp

/-- Claim C9 (confirmed): for /31 and /32 the host count formula of
line 136 yields zero or minus one; the loop bound is a signed comparison,
so the loop runs zero times with no underflow, no probe is dispatched,
and analyze returns an empty pool with no error. -/
theorem degenerate_ranges_no_hosts (probe : List Nat → Option Bool)
    (s : String) (network : List Nat) (p : Nat)
    (hp : parseCIDR s = some (network, p)) (hdeg : p = 31 ∨ p = 32) :
    maxHosts p 32 ≤ 0 ∧ dispatchList network p = ([], false) ∧
    analyze probe s = .ok [] := by
  have hdisp : dispatchList network p = ([], false) := by
    rcases hdeg with h | h <;> subst h <;> rfl
  refine ⟨?_, hdisp, ?_⟩
  · rcases hdeg with h | h <;> subst h <;> decide
  · rw [analyze_eq probe s network p hp, hdisp]
    rfl

/-- Witness for C9 at the concrete input 10.0.0.2/31. -/
theorem degenerate_ranges_no_hosts_witness :
    parseCIDR "10.0.0.2/31" = some ([10, 0, 0, 2], 31) ∧
    (maxHosts 31 32 ≤ 0 ∧ dispatchList [10, 0, 0, 2] 31 = ([], false) ∧
     analyze (fun _ => some true) "10.0.0.2/31" = .ok []) :=
  ⟨by decide, degenerate_ranges_no_hosts (fun _ => some true) "10.0.0.2/31"
    [10, 0, 0, 2] 31 (by decide) (Or.inl rfl)⟩

/-- Claim C2 (confirmed): every key of a pool returned by analyze holds an
address whose value lies strictly between the network address and the
broadcast address of the parsed block; moreover no dispatched probe —
even in a run that later crashes with the enumeration panic — ever
targets the network or the broadcast address. -/
theorem pool_keys_strictly_inside_block (probe : List Nat → Option Bool)
    (s : String) (network : List Nat) (p : Nat)
    (hp : parseCIDR s = some (network, p)) :
    (∀ pool, analyze probe s = .ok pool → ∀ e ∈ pool,
      addrVal network < addrVal e.addr ∧
      addrVal e.addr < addrVal network + 2 ^ (32 - p) - 1) ∧
    (∀ xa ∈ (dispatchList network p).1,
      addrVal xa ≠ addrVal network ∧
      addrVal xa ≠ addrVal network + 2 ^ (32 - p) - 1) := by
  obtain ⟨hp32, a, b, c, d, ha, hb, hc, hd, hnet⟩ := parseCIDR_inv s network p hp
  subst hnet
  rcases Nat.lt_or_ge p 24 with hple | hge24
  · have hpanic : (dispatchList (maskApply a b c d p) p).2 = true :=
      dispatch_panics s _ p hp (by omega)
    have hok : suffixOK (maskApply a b c d p) (incrementIndex p) := by
      refine ⟨rfl, ?_⟩
      intro j hj hj4
      have hj8 : p / 8 ≤ j := hj
      have hones : onesInByte p j ≤ 7 := onesInByte_le_7 p j (by omega)
      interval_cases j
      · exact maskByte_le_254 p 0 a hones ha
      · exact maskByte_le_254 p 1 b hones hb
      · exact maskByte_le_254 p 2 c hones hc
      · exact maskByte_le_254 p 3 d hones hd
    constructor
    · intro pool hpool
      rw [analyze_eq probe s _ p hp, hpanic] at hpool
      simp at hpool
    · intro xa hxa
      obtain ⟨hokx, hlowx, hmonox, hstrict⟩ :=
        enum_mem_ge (incrementIndex p) ((maxHosts p 32).toNat) _ xa hok hxa
      constructor
      · exact ne_of_gt (addrVal_lt _ xa hmonox hstrict)
      · refine addrVal_ne_broadcast xa _ (32 - p) ?_ ?_ (by omega)
        · exact hokx.2 3 (show incrementIndex p ≤ 3 by
            unfold incrementIndex
            omega) (by omega)
        · exact maskByte_eq_zero p 3 d (by omega) hd
  · rcases Nat.lt_or_ge 30 p with h30 | h30
    · have hdeg : p = 31 ∨ p = 32 := by omega
      have hdisp : dispatchList (maskApply a b c d p) p = ([], false) := by
        rcases hdeg with h | h <;> subst h <;> rfl
      constructor
      · intro pool hpool
        have hana : analyze probe s = .ok [] := by
          rw [analyze_eq probe s _ p hp, hdisp]
          rfl
        rw [hana] at hpool
        simp only [AnalyzeResult.ok.injEq] at hpool
        subst hpool
        intro e he
        simp at he
      · intro xa hxa
        rw [hdisp] at hxa
        simp at hxa
    · obtain ⟨w, x, y, z, hnet2, hN, hzb, hdisp⟩ :=
        dispatch_complete s _ p hp hge24 h30
      have h4 : 4 ≤ 2 ^ (32 - p) :=
        le_trans (by norm_num) (Nat.pow_le_pow_right (by norm_num)
          (by omega : 2 ≤ 32 - p))
      have hvals : ∀ xa ∈ (dispatchList (maskApply a b c d p) p).1,
          ∃ j, j < 2 ^ (32 - p) - 2 ∧
            addrVal xa = addrVal (maskApply a b c d p) + (j + 1) := by
        intro xa hxa
        rw [hdisp] at hxa
        simp only [List.mem_map, List.mem_range] at hxa
        obtain ⟨j, hj, rfl⟩ := hxa
        refine ⟨j, hj, ?_⟩
        rw [hnet2]
        show ((w * 256 + x) * 256 + y) * 256 + (z + (j + 1)) =
          ((w * 256 + x) * 256 + y) * 256 + z + (j + 1)
        omega
      constructor
      · intro pool hpool e he
        have hpk : (dispatchList (maskApply a b c d p) p).2 = false := by
          rw [hdisp]
        rw [analyze_eq probe s _ p hp, hpk] at hpool
        simp only [Bool.false_eq_true, if_false, AnalyzeResult.ok.injEq] at hpool
        subst hpool
        obtain ⟨hget, hprobe, hmem⟩ := mem_runPool probe _ e he
        obtain ⟨j, hj, hval⟩ := hvals e.addr hmem
        rw [hval]
        omega
      · intro xa hxa
        obtain ⟨j, hj, hval⟩ := hvals xa hxa
        rw [hval]
        omega

/-- Witness for C2 at the concrete input 10.0.0.0/29. -/
theorem pool_keys_strictly_inside_block_witness :
    parseCIDR "10.0.0.0/29" = some ([10, 0, 0, 0], 29) ∧
    ((∀ pool, analyze (fun _ => some true) "10.0.0.0/29" = .ok pool →
        ∀ e ∈ pool, addrVal [10, 0, 0, 0] < addrVal e.addr ∧
          addrVal e.addr < addrVal [10, 0, 0, 0] + 2 ^ (32 - 29) - 1) ∧
     (∀ xa ∈ (dispatchList [10, 0, 0, 0] 29).1,
        addrVal xa ≠ addrVal [10, 0, 0, 0] ∧
        addrVal xa ≠ addrVal [10, 0, 0, 0] + 2 ^ (32 - 29) - 1)) :=
  ⟨by decide, pool_keys_strictly_inside_block (fun _ => some true)
    "10.0.0.0/29" [10, 0, 0, 0] 29 (by decide)⟩

/-- Claim C5 (corrected), counterexample: two runs over disjoint blocks
return pools with identical key lists — the map keys are the per-task
storage identities (the pointer to each goroutine's ip variable,
numbered here by dispatch position), not values derived from the
addresses, which differ between the two runs. -/
theorem pool_keys_are_task_identities :
    ((poolOf (analyze (fun _ => some true) "10.0.0.0/30")).map PoolEntry.ptr =
      (poolOf (analyze (fun _ => some true) "10.0.1.0/30")).map PoolEntry.ptr) ∧
    ((poolOf (analyze (fun _ => some true) "10.0.0.0/30")).map PoolEntry.addr ≠
      (poolOf (analyze (fun _ => some true) "10.0.1.0/30")).map PoolEntry.addr) := by
  refine ⟨by decide, by decide⟩

/-- Claim C5, amended: in every pool analyze returns, the keys — which are
task-local pointers, not canonical address values — are pairwise
distinct, the stored address values are pairwise distinct addresses
drawn from the dispatched host range, every entry comes from a
successful probe of its address, and no successful probe is lost. -/
theorem pool_entries_distinct_and_sound (probe : List Nat → Option Bool)
    (s : String) (network : List Nat) (p : Nat) (pool : List PoolEntry)
    (hp : parseCIDR s = some (network, p)) (hok : analyze probe s = .ok pool) :
    (pool.map PoolEntry.ptr).Nodup ∧
    (pool.map PoolEntry.addr).Nodup ∧
    (∀ e ∈ pool, e.addr ∈ (dispatchList network p).1 ∧
      probe e.addr = some e.used) ∧
    (∀ i a u, (dispatchList network p).1.get? i = some a → probe a = some u →
      (⟨i, a, u⟩ : PoolEntry) ∈ pool) := by
  rw [analyze_eq probe s network p hp] at hok
  by_cases hpk : (dispatchList network p).2 = true
  · rw [hpk] at hok
    simp at hok
  · rw [Bool.not_eq_true] at hpk
    rw [hpk] at hok
    simp only [Bool.false_eq_true, if_false, AnalyzeResult.ok.injEq] at hok
    subst hok
    refine ⟨runPool_ptr_nodup probe _, ?_, ?_, ?_⟩
    · rcases Nat.lt_or_ge p 24 with hple | hge24
      · exact absurd (dispatch_panics s network p hp (by omega))
          (by rw [hpk]; simp)
      · rcases Nat.lt_or_ge 30 p with h30 | h30
        · obtain ⟨hp32, -, -, -, -, -, -, -, -, -⟩ := parseCIDR_inv s network p hp
          have hdeg : p = 31 ∨ p = 32 := by omega
          have hdisp : dispatchList network p = ([], false) := by
            rcases hdeg with h | h <;> subst h <;> rfl
          rw [hdisp]
          exact List.nodup_nil
        · obtain ⟨w, x, y, z, hnet2, hN, hzb, hdisp⟩ :=
            dispatch_complete s network p hp hge24 h30
          have haddrs : (dispatchList network p).1 =
              (List.range (2 ^ (32 - p) - 2)).map
                (fun j => [w, x, y, z + (j + 1)]) := by
            rw [hdisp]
          have hg : ∀ i e,
              taskOutcome probe (dispatchList network p).1 i = some e →
              e.addr = [w, x, y, z + (i + 1)] := by
            intro i e hout
            obtain ⟨-, hget, -⟩ := taskOutcome_some probe _ i e hout
            rw [haddrs, List.get?_map] at hget
            rcases hr : (List.range (2 ^ (32 - p) - 2)).get? i with _ | j
            · rw [hr] at hget
              cases hget
            · rw [hr] at hget
              obtain ⟨hlt, hval⟩ := List.get?_eq_some.mp hr
              rw [List.get_range] at hval
              subst hval
              simp only [Option.map_some', Option.some.injEq] at hget
              exact hget.symm
          rw [runPool_eq_filterMap probe _ _ (List.nodup_range _),
            map_addr_filterMap probe _ (fun i => [w, x, y, z + (i + 1)]) hg]
          exact List.Nodup.map (hostList_injective w x y z)
            ((List.nodup_range _).filter _)
    · intro e he
      obtain ⟨hget, hprobe, hmem⟩ := mem_runPool probe _ e he
      exact ⟨hmem, hprobe⟩
    · intro i a u hget hprobe
      exact runPool_mem_of_success probe _ i a u hget hprobe

/-- Witness for the amended C5 at the concrete input 10.0.2.0/30. -/
theorem pool_entries_distinct_and_sound_witness :
    parseCIDR "10.0.2.0/30" = some ([10, 0, 2, 0], 30) ∧
    analyze (fun _ => some false) "10.0.2.0/30" =
      .ok [⟨0, [10, 0, 2, 1], false⟩, ⟨1, [10, 0, 2, 2], false⟩] ∧
    ((([(⟨0, [10, 0, 2, 1], false⟩ : PoolEntry),
        ⟨1, [10, 0, 2, 2], false⟩].map PoolEntry.ptr).Nodup) ∧
     (([(⟨0, [10, 0, 2, 1], false⟩ : PoolEntry),
        ⟨1, [10, 0, 2, 2], false⟩].map PoolEntry.addr).Nodup) ∧
     (∀ e ∈ [(⟨0, [10, 0, 2, 1], false⟩ : PoolEntry),
        ⟨1, [10, 0, 2, 2], false⟩],
        e.addr ∈ (dispatchList [10, 0, 2, 0] 30).1 ∧
        (fun _ => some false) e.addr = some e.used) ∧
     (∀ i a u, (dispatchList [10, 0, 2, 0] 30).1.get? i = some a →
        (fun _ => some false) a = some u →
        (⟨i, a, u⟩ : PoolEntry) ∈
          [(⟨0, [10, 0, 2, 1], false⟩ : PoolEntry),
           ⟨1, [10, 0, 2, 2], false⟩])) :=
  ⟨by decide, by decide,
    pool_entries_distinct_and_sound (fun _ => some false) "10.0.2.0/30"
      [10, 0, 2, 0] 30 _ (by decide) (by decide)⟩

/-- Claim C10 (confirmed): analyze launches one probe task per dispatched
host address and joins all of them before returning: for every schedule
(permutation of the task indices) in which the mutex-serialized pool
writes could occur, the resulting pool is the same up to ordering as the
pool analyze returns, and every dispatched task whose probe succeeded
has its entry in the returned pool — no task is abandoned and no write
is lost. -/
theorem fanout_join_schedule_independent (probe : List Nat → Option Bool)
    (s : String) (network : List Nat) (p : Nat) (pool : List PoolEntry)
    (order : List Nat) (hp : parseCIDR s = some (network, p))
    (hok : analyze probe s = .ok pool)
    (hperm : order.Perm (List.range (dispatchList network p).1.length)) :
    (runPool probe (dispatchList network p).1 order).Perm pool ∧
    ∀ i a u, (dispatchList network p).1.get? i = some a → probe a = some u →
      (⟨i, a, u⟩ : PoolEntry) ∈ pool := by
  rw [analyze_eq probe s network p hp] at hok
  by_cases hpk : (dispatchList network p).2 = true
  · rw [hpk] at hok
    simp at hok
  · rw [Bool.not_eq_true] at hpk
    rw [hpk] at hok
    simp only [Bool.false_eq_true, if_false, AnalyzeResult.ok.injEq] at hok
    subst hok
    have hnd : order.Nodup := hperm.nodup_iff.mpr (List.nodup_range _)
    constructor
    · rw [runPool_eq_filterMap probe _ _ hnd,
        runPool_eq_filterMap probe _ _ (List.nodup_range _)]
      exact hperm.filterMap _
    · intro i a u hget hprobe
      exact runPool_mem_of_success probe _ i a u hget hprobe

/-- Witness for C10 at the concrete input 10.0.0.4/30 with the reversed
completion schedule. -/
theorem fanout_join_schedule_independent_witness :
    parseCIDR "10.0.0.4/30" = some ([10, 0, 0, 4], 30) ∧
    analyze (fun _ => some true) "10.0.0.4/30" =
      .ok [⟨0, [10, 0, 0, 5], true⟩, ⟨1, [10, 0, 0, 6], true⟩] ∧
    [1, 0].Perm (List.range (dispatchList [10, 0, 0, 4] 30).1.length) ∧
    ((runPool (fun _ => some true) (dispatchList [10, 0, 0, 4] 30).1
        [1, 0]).Perm
        [⟨0, [10, 0, 0, 5], true⟩, ⟨1, [10, 0, 0, 6], true⟩] ∧
     ∀ i a u, (dispatchList [10, 0, 0, 4] 30).1.get? i = some a →
        (fun _ => some true) a = some u →
        (⟨i, a, u⟩ : PoolEntry) ∈
          [(⟨0, [10, 0, 0, 5], true⟩ : PoolEntry),
           ⟨1, [10, 0, 0, 6], true⟩]) :=
  ⟨by decide, by decide, by decide,
    fanout_join_schedule_independent (fun _ => some true) "10.0.0.4/30"
      [10, 0, 0, 4] 30 _ [1, 0] (by decide) (by decide) (by decide)⟩

end IpDefiner
